import Mathlib

/-!
# Verification of the `retry` package (arsham/retry)

Shallow embedding of `retry.go`: the `Retry` engine (`Do` / `DoContext` /
`do`), the `StopError` type with Go's `errors.As` / `errors.Is` traversal,
panic recovery, and the delay policies (`StandardDelay`,
`IncrementalDelay`, `IncrementalDelayMax`).

Modelling conventions:

* A Go `error` value is `Option GoErr`; `none` is `nil`.
* `GoErr.base s` is an `errors.New`-style leaf; two leaves denote the same
  Go error value exactly when their strings are equal.
* `GoErr.stopPtr` is `*StopError`, `GoErr.stopVal` is a `StopError` passed
  by value (Go's `errors.As` with a `**StopError` target matches only the
  pointer form).
* `GoErr.wrapErr a b s` is `fmt.Errorf("%w: %w\n%s", a, b, s)` and
  `GoErr.wrapMsg a m s` is `fmt.Errorf("%w: %s\n%s", a, m, s)`, with `s`
  the captured `debug.Stack()` text.
* `time.Duration` and Go `int` are `Int` (int64); the one arithmetic
  computation (`IncrementalDelayMax`) wraps through `wrap64`, and
  `rand.Int63n(d)` with `d ≤ 0` (a Go panic) is modelled as `none`.
* A `repeatFunc` is a function from its own prior invocation count to an
  `OpOutcome` (return a value, or panic).  A `context.Context` is a
  monotone flag read at the engine's checkpoints, indexed by the total
  number of operation invocations performed so far, plus the `ctx.Err()`
  reason reported once the flag is set.
* Running the engine yields a `Trace`: the returned error, the per-
  operation invocation counts, and the list of durations passed to
  `time.Sleep`, in order.
-/

/-- Go error values relevant to the `retry` package.  A `StopError` whose
`Err` field is nil is its own constructor so the type stays a plain
(non-nested) inductive: `stopPtr e` is `&StopError{Err: e}` with `e`
non-nil, `stopPtrNil` is `&StopError{Err: nil}`; likewise `stopVal` /
`stopValNil` for a `StopError` passed by value. -/
inductive GoErr where
  | base (msg : String)
  | stopPtr (err : GoErr)
  | stopPtrNil
  | stopVal (err : GoErr)
  | stopValNil
  | wrapErr (outer : GoErr) (inner : GoErr) (suffix : String)
  | wrapMsg (outer : GoErr) (msg : String) (suffix : String)
deriving DecidableEq, Repr

/-- `errors.As(err, &e)` with `e : *StopError`: pre-order walk of the
unwrap chain (`fmt` double-wrap errors unwrap to both children, in order);
returns the `Err` field of the first `*StopError` found.  A by-value
`StopError` does not match the pointer target but is unwrapped through. -/
def findStopPtr : GoErr → Option (Option GoErr)
  | .base _ => none
  | .stopPtr inner => some (some inner)
  | .stopPtrNil => some none
  | .stopVal e => findStopPtr e
  | .stopValNil => none
  | .wrapErr a b _ => (findStopPtr a).orElse fun _ => findStopPtr b
  | .wrapMsg a _ _ => findStopPtr a

/-- `errors.Is(err, target)`: equality at each node of the unwrap chain. -/
def errorsIs (e t : GoErr) : Bool :=
  (e == t) ||
    match e with
    | .stopPtr e' => errorsIs e' t
    | .stopVal e' => errorsIs e' t
    | .wrapErr a b _ => errorsIs a t || errorsIs b t
    | .wrapMsg a _ _ => errorsIs a t
    | _ => false

/-- The `Error()` text of an error value.  `StopError.Error` delegates to
the wrapped error; the two `fmt.Errorf` shapes produced by panic recovery
render as `"<outer>: <inner>\n<stack>"`. -/
def errorText : GoErr → String
  | .base m => m
  | .stopPtr e => errorText e
  | .stopPtrNil => ""
  | .stopVal e => errorText e
  | .stopValNil => ""
  | .wrapErr a b s => errorText a ++ ": " ++ errorText b ++ "\n" ++ s
  | .wrapMsg a m s => errorText a ++ ": " ++ m ++ "\n" ++ s

/-- `var errPanic = errors.New("function caused a panic")`. -/
def errPanic : GoErr := .base "function caused a panic"

/-- One invocation of a `repeatFunc` either returns (an error or nil) or
panics, with an error payload or some other payload rendered by `%s`. -/
inductive OpOutcome where
  | ret (e : Option GoErr)
  | panicErr (e : GoErr)
  | panicOther (msg : String)
deriving DecidableEq, Repr

/-- The recover wrapper in `Retry.do`: a normal return passes through; a
panic is converted to `fmt.Errorf("%w: %w\n%s", errPanic, x, debug.Stack())`
when the payload is an error, else `fmt.Errorf("%w: %s\n%s", ...)`. -/
def runOp (stack : String) (o : OpOutcome) : Option GoErr :=
  match o with
  | .ret e => e
  | .panicErr x => some (.wrapErr errPanic x stack)
  | .panicOther m => some (.wrapMsg errPanic m stack)

/-- A `context.Context` as observed by the engine: `done n` is whether
`ctx.Done()` is closed when `n` operation invocations have completed, and
`reason` is `ctx.Err()` once done. -/
structure Ctx where
  done : Nat → Bool
  reason : GoErr

/-- The `Retry` configuration struct: `Method`, `Delay`, `MaxDelay`
(never read by the engine), `Attempts`. -/
structure Retry where
  method : Option (Int → Int → Int)
  delay : Int
  maxDelay : Int
  attempts : Int

/-- Execution record of one engine invocation: the returned error, the
final invocation count of each operation (in group order), and the
durations handed to `time.Sleep`, in order. -/
structure Trace where
  result : Option GoErr
  counts : List Nat
  waits : List Int
deriving DecidableEq, Repr

/-- `Retry.do`: run the operation group once.  Before each operation the
context is polled; a done context returns `ctx.Err()`.  The first non-nil
result (after panic conversion) ends the group.  The state is the list of
operations paired with their invocation counts; `total` is the global
invocation counter used to index the context. -/
def runGroup (stack : String) (ctx : Ctx) :
    List ((Nat → OpOutcome) × Nat) → Nat →
    Option GoErr × List ((Nat → OpOutcome) × Nat) × Nat
  | [], total => (none, [], total)
  | (op, c) :: rest, total =>
    if ctx.done total then (some ctx.reason, (op, c) :: rest, total)
    else
      match runOp stack (op c) with
      | some e => (some e, (op, c + 1) :: rest, total + 1)
      | none =>
        let r := runGroup stack ctx rest (total + 1)
        (r.1, (op, c + 1) :: r.2.1, r.2.2)

/-- The loop body of `Retry.DoContext`, with the iteration count as fuel.
Each iteration polls the context, runs the group, returns on success,
returns `e.Err` when `errors.As` finds a `*StopError`, and otherwise
sleeps `method(i+1, delay)` and continues.  When the fuel runs out the
last error is returned (the exhausted outcome). -/
def doLoop (stack : String) (ctx : Ctx) (method : Int → Int → Int)
    (delay : Int) :
    Nat → Nat → List ((Nat → OpOutcome) × Nat) → Nat → Option GoErr → Trace
  | 0, _, st, _, lastErr => ⟨lastErr, st.map Prod.snd, []⟩
  | fuel + 1, i, st, total, _ =>
    if ctx.done total then ⟨some ctx.reason, st.map Prod.snd, []⟩
    else
      let g := runGroup stack ctx st total
      match g.1 with
      | none => ⟨none, g.2.1.map Prod.snd, []⟩
      | some e =>
        match findStopPtr e with
        | some inner => ⟨inner, g.2.1.map Prod.snd, []⟩
        | none =>
          let t := doLoop stack ctx method delay fuel (i + 1) g.2.1 g.2.2
            (some e)
          ⟨t.result, t.counts, method (Int.ofNat (i + 1)) delay :: t.waits⟩

/-- `func StandardDelay(_ int, delay time.Duration) time.Duration`. -/
def standardDelay : Int → Int → Int := fun _ delay => delay

/-- `Retry.DoContext`: installs `StandardDelay` when `Method` is nil and
runs the loop `r.Attempts` times (`for i := range r.Attempts` iterates
zero times for a non-positive count). -/
def Retry.doContext (r : Retry) (ctx : Ctx) (stack : String)
    (ops : List (Nat → OpOutcome)) : Trace :=
  doLoop stack ctx (r.method.getD standardDelay) r.delay
    r.attempts.toNat 0 (ops.map fun f => (f, 0)) 0 none

/-- The context created by `Retry.Do` via `context.WithCancel`: cancelled
only after `DoContext` returns, hence never observed done. -/
def neverDone : Ctx := ⟨fun _ => false, .base "context canceled"⟩

/-- `Retry.Do`: `DoContext` with a context this call never cancels. -/
def Retry.Do (r : Retry) (stack : String)
    (ops : List (Nat → OpOutcome)) : Trace :=
  r.doContext neverDone stack ops

/-- Reduction of an `Int` into the two's-complement int64 range, for the
one place Go duration arithmetic can overflow. -/
def wrap64 (x : Int) : Int := (x + 2 ^ 63) % 2 ^ 64 - 2 ^ 63

/-- `IncrementalDelayMax(maximum)` applied to `(attempt, delay)`, with the
draw `j` of `rand.Int63n(d)` passed explicitly (valid draws satisfy
`0 ≤ j < d`).  A zero delay returns zero before clamping; after clamping,
`rand.Int63n` panics when its bound is not positive, modelled as `none`;
otherwise the result is `delay*attempt + j/2` in int64 arithmetic. -/
def incrementalDelayMax (maximum attempt delay j : Int) : Option Int :=
  if delay = 0 then some 0
  else
    let d := if delay > maximum then maximum else delay
    if d ≤ 0 then none
    else some (wrap64 (wrap64 (d * attempt) + j / 2))

/-- `IncrementalDelay`: `IncrementalDelayMax(time.Second)`. -/
def incrementalDelay (attempt delay j : Int) : Option Int :=
  incrementalDelayMax 1000000000 attempt delay j

/-- The sleeps recorded by `fuel` consecutive failing iterations starting
at 0-based loop index `i`. -/
def waitsFrom (method : Int → Int → Int) (delay : Int) (i : Nat) :
    Nat → List Int
  | 0 => []
  | fuel + 1 => method (Int.ofNat (i + 1)) delay :: waitsFrom method delay (i + 1) fuel

/-- `d + 1` nested layers of `*StopError` around the innermost `Err`
field `inner` (an error or nil). -/
def nestStop : Nat → Option GoErr → GoErr
  | 0, some e => .stopPtr e
  | 0, none => .stopPtrNil
  | d + 1, inner => .stopPtr (nestStop d inner)

theorem waitsFrom_length (method : Int → Int → Int) (delay : Int) :
    ∀ fuel i, (waitsFrom method delay i fuel).length = fuel := by
  intro fuel
  induction fuel with
  | zero => intro i; rfl
  | succ fuel ih => intro i; simp [waitsFrom, ih]

theorem waitsFrom_standard (delay : Int) :
    ∀ fuel i, waitsFrom standardDelay delay i fuel = List.replicate fuel delay := by
  intro fuel
  induction fuel with
  | zero => intro i; rfl
  | succ fuel ih => intro i; simp [waitsFrom, standardDelay, ih, List.replicate]

theorem wrap64_eq_self (x : Int) (h0 : 0 ≤ x) (h1 : x < 2 ^ 63) :
    wrap64 x = x := by
  unfold wrap64
  have : (x + 2 ^ 63) % 2 ^ 64 = x + 2 ^ 63 := by
    apply Int.emod_eq_of_lt <;> omega
  omega

theorem initCounts (ops : List (Nat → OpOutcome)) :
    (ops.map fun f => (f, 0)).map Prod.snd = List.replicate ops.length 0 := by
  induction ops with
  | nil => rfl
  | cons f t ih => simp [List.replicate, ih]

/-- A single-operation attempt that fails ordinarily, under a live
context. -/
theorem runGroup_single_fail (stack : String) (ctx : Ctx)
    (op : Nat → OpOutcome) (c total : Nat) (e : GoErr)
    (hctx : ctx.done total = false) (hop : runOp stack (op c) = some e) :
    runGroup stack ctx [(op, c)] total = (some e, [(op, c + 1)], total + 1) := by
  simp [runGroup, hctx, hop]

/-- The attempt loop on a single operation that fails ordinarily on every
invocation (its `c`-th call returns `f c`, never carrying a `*StopError`),
under a context that is never done: every iteration consumes one call and
one sleep, and the loop ends with the last failure. -/
theorem doLoop_fail_single (stack : String) (ctx : Ctx)
    (method : Int → Int → Int) (delay : Int)
    (op : Nat → OpOutcome) (f : Nat → GoErr)
    (hctx : ∀ n, ctx.done n = false)
    (hop : ∀ n, runOp stack (op n) = some (f n))
    (hf : ∀ n, findStopPtr (f n) = none) :
    ∀ fuel c i total e0,
      doLoop stack ctx method delay (fuel + 1) i [(op, c)] total e0 =
        ⟨some (f (c + fuel)), [c + fuel + 1],
          waitsFrom method delay i (fuel + 1)⟩ := by
  intro fuel
  induction fuel with
  | zero =>
    intro c i total e0
    simp [doLoop, runGroup, hctx, hop, hf, waitsFrom]
  | succ fuel ih =>
    intro c i total e0
    have step : runGroup stack ctx [(op, c)] total =
        (some (f c), [(op, c + 1)], total + 1) :=
      runGroup_single_fail stack ctx op c total (f c) (hctx total) (hop c)
    rw [doLoop]
    simp only [hctx, Bool.false_eq_true, if_false, step, hf]
    rw [ih (c + 1) (i + 1) (total + 1)]
    have h1 : c + 1 + fuel = c + (fuel + 1) := by omega
    rw [h1]
    rfl

/-- C2 helper: with a non-positive attempt budget the loop body never
runs. -/
theorem doContext_nonpos (r : Retry) (hr : r.attempts ≤ 0) (ctx : Ctx)
    (stack : String) (ops : List (Nat → OpOutcome)) :
    r.doContext ctx stack ops = ⟨none, List.replicate ops.length 0, []⟩ := by
  have h0 : r.attempts.toNat = 0 := by omega
  simp only [Retry.doContext, h0]
  rw [doLoop, initCounts]

/-- C1: for every attempt budget `N ≥ 1` and an operation failing with the
same ordinary (Stop-free) error `E` on every invocation, `DoContext`
(under a context that never fires) and `Do` invoke the operation exactly
`N` times and return `E` itself as the exhausted outcome. -/
theorem C1_exhaustion_returns_last_error (method : Option (Int → Int → Int))
    (delay maxDelay N : Int) (hN : 1 ≤ N) (stack : String) (ctx : Ctx)
    (hctx : ∀ n, ctx.done n = false) (E : GoErr)
    (hE : findStopPtr E = none) :
    (Retry.mk method delay maxDelay N).doContext ctx stack
        [fun _ => .ret (some E)] =
      ⟨some E, [N.toNat],
        waitsFrom (method.getD standardDelay) delay 0 N.toNat⟩ ∧
    (Retry.mk method delay maxDelay N).Do stack [fun _ => .ret (some E)] =
      ⟨some E, [N.toNat],
        waitsFrom (method.getD standardDelay) delay 0 N.toNat⟩ := by
  obtain ⟨m, hm⟩ : ∃ m, N.toNat = m + 1 := ⟨N.toNat - 1, by omega⟩
  have main : ∀ ctx' : Ctx, (∀ n, ctx'.done n = false) →
      (Retry.mk method delay maxDelay N).doContext ctx' stack
          [fun _ => .ret (some E)] =
        ⟨some E, [N.toNat],
          waitsFrom (method.getD standardDelay) delay 0 N.toNat⟩ := by
    intro ctx' hctx'
    unfold Retry.doContext
    simp only [hm, List.map]
    rw [doLoop_fail_single stack ctx' (method.getD standardDelay) delay
      (fun _ => .ret (some E)) (fun _ => E) hctx' (fun _ => rfl) (fun _ => hE)
      m 0 0 0 none]
    simp
  exact ⟨main ctx hctx, main neverDone (fun _ => rfl)⟩

/-- C1 witness. -/
theorem C1_exhaustion_returns_last_error_witness :
    (Retry.mk none 5 0 3).Do "stk" [fun _ => .ret (some (.base "e"))] =
      ⟨some (.base "e"), [3], [5, 5, 5]⟩ := by
  rw [(C1_exhaustion_returns_last_error none 5 0 3 (by decide) "stk"
    neverDone (fun _ => rfl) (.base "e") rfl).2]
  rfl

/-- C2: with a zero or negative `Attempts` field, `Do` and `DoContext`
return nil and invoke no operation (and perform no sleeps). -/
theorem C2_nonpositive_budget_noop (r : Retry) (hr : r.attempts ≤ 0)
    (ctx : Ctx) (stack : String) (ops : List (Nat → OpOutcome)) :
    r.doContext ctx stack ops = ⟨none, List.replicate ops.length 0, []⟩ ∧
    r.Do stack ops = ⟨none, List.replicate ops.length 0, []⟩ :=
  ⟨doContext_nonpos r hr ctx stack ops,
   doContext_nonpos r hr neverDone stack ops⟩

/-- The attempt loop on a single operation whose calls `c, …, c+k-1` fail
ordinarily and whose call `c+k` returns an error in which `errors.As`
finds a `*StopError` with `Err` field `inner`: the loop stops after
`k + 1` calls, sleeps only after the `k` ordinary failures, and returns
`inner`. -/
theorem doLoop_stop_single (stack : String) (ctx : Ctx)
    (method : Int → Int → Int) (delay : Int)
    (op : Nat → OpOutcome) (f : Nat → GoErr) (inner : Option GoErr)
    (hctx : ∀ n, ctx.done n = false)
    (hf : ∀ n, findStopPtr (f n) = none) :
    ∀ k c i total e0 rest,
      (∀ m, m < k → runOp stack (op (c + m)) = some (f (c + m))) →
      (∃ s, runOp stack (op (c + k)) = some s ∧ findStopPtr s = some inner) →
      doLoop stack ctx method delay (k + rest + 1) i [(op, c)] total e0 =
        ⟨inner, [c + k + 1], waitsFrom method delay i k⟩ := by
  intro k
  induction k with
  | zero =>
    intro c i total e0 rest _ hstop
    obtain ⟨s, hs, hfind⟩ := hstop
    have step : runGroup stack ctx [(op, c)] total =
        (some s, [(op, c + 1)], total + 1) :=
      runGroup_single_fail stack ctx op c total s (hctx total) (by simpa using hs)
    rw [doLoop]
    simp only [hctx, Bool.false_eq_true, if_false, step, hfind]
    rfl
  | succ k ih =>
    intro c i total e0 rest hord hstop
    have h0 : runOp stack (op c) = some (f c) := by
      have := hord 0 (by omega)
      simpa using this
    have step : runGroup stack ctx [(op, c)] total =
        (some (f c), [(op, c + 1)], total + 1) :=
      runGroup_single_fail stack ctx op c total (f c) (hctx total) h0
    rw [doLoop]
    simp only [hctx, Bool.false_eq_true, if_false, step, hf]
    have hfe : k + 1 + rest = k + rest + 1 := by omega
    rw [hfe, ih (c + 1) (i + 1) (total + 1) (some (f c)) rest ?_ ?_]
    · have h1 : c + 1 + k = c + (k + 1) := by omega
      rw [h1]
      rfl
    · intro m hm
      have h2 : c + 1 + m = c + (m + 1) := by omega
      rw [h2]
      exact hord (m + 1) (by omega)
    · have h3 : c + 1 + k = c + (k + 1) := by omega
      rw [h3]
      exact hstop

theorem errorsIs_self (E : GoErr) : errorsIs E E = true := by
  cases E <;> rw [errorsIs]
  all_goals
    first
      | simp only [beq_self_eq_true, Bool.true_or]
      | (intros h1 h2; exact GoErr.noConfusion h2)
      | (intros h1 h2 h3 h4; exact GoErr.noConfusion h4)

theorem errorsIs_nestStop : ∀ (d : Nat) (E : GoErr),
    errorsIs (nestStop d (some E)) E = true
  | 0, E => by rw [nestStop, errorsIs]; simp [errorsIs_self]
  | d + 1, E => by rw [nestStop, errorsIs]; simp [errorsIs_nestStop d E]

theorem findStopPtr_nestStop (d : Nat) (inner : Option GoErr) :
    findStopPtr (nestStop d inner) =
      some (match d with
            | 0 => inner
            | Nat.succ d' => some (nestStop d' inner)) := by
  match d, inner with
  | 0, some e => rfl
  | 0, none => rfl
  | d + 1, inner => rfl

/-- C3: an operation that fails ordinarily on attempts `1..k` and returns
`&StopError{Err: E}` (with `E` ordinary) for the first time on attempt
`i = k + 1 ≤ N` is invoked exactly `i` times; the engine sleeps only after
the `k = i - 1` ordinary failures (no backoff after the stop), skips the
remaining attempts, and returns the unwrapped inner error `E`. -/
theorem C3_stop_error_short_circuits (method : Option (Int → Int → Int))
    (delay maxDelay : Int) (k N : Nat) (hk : k < N) (stack : String)
    (ctx : Ctx) (hctx : ∀ n, ctx.done n = false) (f : Nat → GoErr)
    (hf : ∀ n, findStopPtr (f n) = none) (E : GoErr)
    (hE : findStopPtr E = none) :
    (Retry.mk method delay maxDelay (N : Int)).doContext ctx stack
        [fun n => if n < k then .ret (some (f n)) else .ret (some (.stopPtr E))] =
      ⟨some E, [k + 1], waitsFrom (method.getD standardDelay) delay 0 k⟩ ∧
    (waitsFrom (method.getD standardDelay) delay 0 k).length = k := by
  refine ⟨?_, waitsFrom_length _ _ k 0⟩
  unfold Retry.doContext
  have hN : (N : Int).toNat = k + (N - k - 1) + 1 := by omega
  simp only [hN, List.map]
  rw [doLoop_stop_single stack ctx (method.getD standardDelay) delay _
    f (some E) hctx hf k 0 0 0 none (N - k - 1) ?_ ?_]
  · simp
  · intro m hm
    simp [Nat.zero_add, hm, runOp]
  · refine ⟨.stopPtr E, ?_, rfl⟩
    simp [runOp]

/-- C3 witness. -/
theorem C3_stop_error_short_circuits_witness :
    (Retry.mk none 5 0 (4 : Nat)).doContext neverDone "stk"
        [fun n => if n < 2 then .ret (some (.base "f"))
                  else .ret (some (.stopPtr (.base "e")))] =
      ⟨some (.base "e"), [3], [5, 5]⟩ := by
  rw [(C3_stop_error_short_circuits none 5 0 2 4 (by decide) "stk" neverDone
    (fun _ => rfl) (fun _ => .base "f") (fun _ => rfl) (.base "e") rfl).1]
  rfl

/-- C4 counterexample: with two nested Stop Signals
`&StopError{Err: &StopError{Err: e}}` the engine does not return the
innermost error `e`; it returns the still-wrapped inner `*StopError`. -/
theorem C4_counterexample :
    ((Retry.mk none 0 0 1).Do "s"
        [fun _ => .ret (some (.stopPtr (.stopPtr (.base "e"))))]).result ≠
      some (.base "e") := by
  decide

/-- C4 (amended): `errors.As` selects the outermost `*StopError` of the
chain and the engine returns its `Err` field — exactly one Stop layer is
removed, so `d + 1` nested layers around innermost field `inner` yield
`inner` itself when `d = 0` and the next `*StopError` wrapper otherwise,
after a single invocation with no backoff; an `errors.Is` identity check
of the returned error against the innermost error succeeds through the
remaining chain. -/
theorem C4_unwraps_one_stop_layer (method : Option (Int → Int → Int))
    (delay maxDelay N : Int) (hN : 1 ≤ N) (stack : String) (ctx : Ctx)
    (hctx : ∀ n, ctx.done n = false) (d : Nat) (inner : Option GoErr) :
    ((Retry.mk method delay maxDelay N).doContext ctx stack
        [fun _ => .ret (some (nestStop d inner))]).counts = [1] ∧
    ((Retry.mk method delay maxDelay N).doContext ctx stack
        [fun _ => .ret (some (nestStop d inner))]).waits = [] ∧
    ((Retry.mk method delay maxDelay N).doContext ctx stack
        [fun _ => .ret (some (nestStop d inner))]).result =
      (match d with
       | 0 => inner
       | Nat.succ d' => some (nestStop d' inner)) ∧
    (∀ E, inner = some E →
      ∃ r, ((Retry.mk method delay maxDelay N).doContext ctx stack
          [fun _ => .ret (some (nestStop d inner))]).result = some r ∧
        errorsIs r E = true) := by
  have hfuel : N.toNat = 0 + (N.toNat - 1) + 1 := by omega
  have main : (Retry.mk method delay maxDelay N).doContext ctx stack
      [fun _ => .ret (some (nestStop d inner))] =
      ⟨(match d with
        | 0 => inner
        | Nat.succ d' => some (nestStop d' inner)), [1],
        waitsFrom (method.getD standardDelay) delay 0 0⟩ := by
    unfold Retry.doContext
    rw [hfuel]
    simp only [List.map]
    rw [doLoop_stop_single stack ctx (method.getD standardDelay) delay
      (fun _ => .ret (some (nestStop d inner))) (fun _ => .base "")
      (match d with
       | 0 => inner
       | Nat.succ d' => some (nestStop d' inner)) hctx (fun _ => rfl)
      0 0 0 0 none (N.toNat - 1) (fun m hm => absurd hm (by omega))
      ⟨nestStop d inner, rfl, findStopPtr_nestStop d inner⟩]
  refine ⟨by rw [main], by rw [main]; rfl, by rw [main], ?_⟩
  rintro E rfl
  rw [main]
  match d with
  | 0 => exact ⟨E, rfl, errorsIs_self E⟩
  | d' + 1 => exact ⟨nestStop d' (some E), rfl, errorsIs_nestStop d' E⟩

/-- C4 amended-claim witness. -/
theorem C4_unwraps_one_stop_layer_witness :
    ((Retry.mk none 0 0 1).Do "s"
        [fun _ => .ret (some (.stopPtr (.stopPtr (.base "e"))))]).result =
        some (.stopPtr (.base "e")) ∧
    errorsIs (.stopPtr (.base "e")) (.base "e") = true := by
  have h := C4_unwraps_one_stop_layer none 0 0 1 (by decide) "s" neverDone
    (fun _ => rfl) 1 (some (.base "e"))
  exact ⟨h.2.2.1, by decide⟩

/-- C10: a `StopError` returned by value (not `*StopError`) wrapping an
ordinary error `E` is not recognised by `errors.As` as a stop signal: the
operation is retried for the whole budget `N` and the final result is the
`StopError` value itself, not the unwrapped `E`. -/
theorem C10_value_stop_not_detected (method : Option (Int → Int → Int))
    (delay maxDelay N : Int) (hN : 1 ≤ N) (stack : String) (ctx : Ctx)
    (hctx : ∀ n, ctx.done n = false) (E : GoErr)
    (hE : findStopPtr E = none) :
    (Retry.mk method delay maxDelay N).doContext ctx stack
        [fun _ => .ret (some (.stopVal E))] =
      ⟨some (.stopVal E), [N.toNat],
        waitsFrom (method.getD standardDelay) delay 0 N.toNat⟩ ∧
    (Retry.mk method delay maxDelay N).Do stack
        [fun _ => .ret (some (.stopVal E))] =
      ⟨some (.stopVal E), [N.toNat],
        waitsFrom (method.getD standardDelay) delay 0 N.toNat⟩ := by
  obtain ⟨m, hm⟩ : ∃ m, N.toNat = m + 1 := ⟨N.toNat - 1, by omega⟩
  have main : ∀ ctx' : Ctx, (∀ n, ctx'.done n = false) →
      (Retry.mk method delay maxDelay N).doContext ctx' stack
          [fun _ => .ret (some (.stopVal E))] =
        ⟨some (.stopVal E), [N.toNat],
          waitsFrom (method.getD standardDelay) delay 0 N.toNat⟩ := by
    intro ctx' hctx'
    unfold Retry.doContext
    simp only [hm, List.map]
    rw [doLoop_fail_single stack ctx' (method.getD standardDelay) delay
      (fun _ => .ret (some (.stopVal E))) (fun _ => .stopVal E) hctx'
      (fun _ => rfl) (fun _ => by simpa [findStopPtr] using hE)
      m 0 0 0 none]
    simp
  exact ⟨main ctx hctx, main neverDone (fun _ => rfl)⟩

/-- C10 witness. -/
theorem C10_value_stop_not_detected_witness :
    (Retry.mk none 5 0 3).Do "stk"
        [fun _ => .ret (some (.stopVal (.base "e")))] =
      ⟨some (.stopVal (.base "e")), [3], [5, 5, 5]⟩ := by
  rw [(C10_value_stop_not_detected none 5 0 3 (by decide) "stk" neverDone
    (fun _ => rfl) (.base "e") rfl).2]
  rfl

theorem findStopPtr_panicWrapErr (E : GoErr) (s : String)
    (hE : findStopPtr E = none) :
    findStopPtr (.wrapErr errPanic E s) = none := by
  rw [findStopPtr]
  simp [errPanic, findStopPtr, Option.orElse, hE]

/-- C5: an operation that panics on every invocation is retried for the
whole budget `N` like an ordinary failure; the engine converts the panic
into a normal error (it never escapes), whose text starts with the fixed
marker and embeds the captured stack trace; `errors.Is` identifies both
the panic marker and, for an error payload, the original fault; a panic
with a non-error payload is likewise converted and retried. -/
theorem C5_panic_recovered_and_retried (method : Option (Int → Int → Int))
    (delay maxDelay N : Int) (hN : 1 ≤ N) (stack : String) (ctx : Ctx)
    (hctx : ∀ n, ctx.done n = false) (E : GoErr)
    (hE : findStopPtr E = none) (msg : String) :
    (Retry.mk method delay maxDelay N).doContext ctx stack
        [fun _ => .panicErr E] =
      ⟨some (.wrapErr errPanic E stack), [N.toNat],
        waitsFrom (method.getD standardDelay) delay 0 N.toNat⟩ ∧
    errorText (.wrapErr errPanic E stack) =
      "function caused a panic" ++ ": " ++ errorText E ++ "\n" ++ stack ∧
    errorsIs (.wrapErr errPanic E stack) E = true ∧
    errorsIs (.wrapErr errPanic E stack) errPanic = true ∧
    (Retry.mk method delay maxDelay N).doContext ctx stack
        [fun _ => .panicOther msg] =
      ⟨some (.wrapMsg errPanic msg stack), [N.toNat],
        waitsFrom (method.getD standardDelay) delay 0 N.toNat⟩ := by
  obtain ⟨m, hm⟩ : ∃ m, N.toNat = m + 1 := ⟨N.toNat - 1, by omega⟩
  refine ⟨?_, rfl, ?_, ?_, ?_⟩
  · unfold Retry.doContext
    simp only [hm, List.map]
    rw [doLoop_fail_single stack ctx (method.getD standardDelay) delay
      (fun _ => .panicErr E) (fun _ => .wrapErr errPanic E stack) hctx
      (fun _ => rfl) (fun _ => findStopPtr_panicWrapErr E stack hE)
      m 0 0 0 none]
    simp
  · rw [errorsIs]
    simp [errorsIs_self, Bool.or_true]
  · rw [errorsIs]
    simp [errorsIs_self, Bool.or_true]
  · unfold Retry.doContext
    simp only [hm, List.map]
    rw [doLoop_fail_single stack ctx (method.getD standardDelay) delay
      (fun _ => .panicOther msg) (fun _ => .wrapMsg errPanic msg stack) hctx
      (fun _ => rfl) (fun _ => rfl) m 0 0 0 none]
    simp

/-- C5 witness. -/
theorem C5_panic_recovered_and_retried_witness :
    (Retry.mk none 5 0 2).doContext neverDone "stk"
        [fun _ => .panicErr (.base "boom")] =
      ⟨some (.wrapErr errPanic (.base "boom") "stk"), [2], [5, 5]⟩ ∧
    errorsIs (.wrapErr errPanic (.base "boom") "stk") (.base "boom") = true := by
  have h := C5_panic_recovered_and_retried none 5 0 2 (by decide) "stk"
    neverDone (fun _ => rfl) (.base "boom") rfl "p"
  refine ⟨?_, h.2.2.1⟩
  rw [h.1]
  rfl

/-- One attempt over a group in which every operation returns nil: all are
invoked once, in order, and the attempt succeeds. -/
theorem runGroup_all_ok (stack : String) (ctx : Ctx)
    (hctx : ∀ n, ctx.done n = false) :
    ∀ (st : List ((Nat → OpOutcome) × Nat)) (total : Nat),
      (∀ p ∈ st, runOp stack (p.1 p.2) = none) →
      runGroup stack ctx st total =
        (none, st.map (fun p => (p.1, p.2 + 1)), total + st.length) := by
  intro st
  induction st with
  | nil => intro total _; rfl
  | cons p rest ih =>
    intro total hok
    obtain ⟨op, c⟩ := p
    have h0 : runOp stack (op c) = none := hok (op, c) (by simp)
    rw [runGroup]
    simp only [hctx, Bool.false_eq_true, if_false, h0]
    rw [ih (total + 1) (fun q hq => hok q (by simp [hq]))]
    simp [Trace.mk.injEq]
    omega

/-- One attempt over a group whose operations before index `j` succeed
and whose `j`-th operation fails: the failure is the attempt's outcome,
exactly the operations up to and including `j` are invoked, and the
operations after `j` keep their invocation counts. -/
theorem runGroup_first_fail (stack : String) (ctx : Ctx)
    (hctx : ∀ n, ctx.done n = false) :
    ∀ (st1 : List ((Nat → OpOutcome) × Nat)) (op : Nat → OpOutcome)
      (c : Nat) (st2 : List ((Nat → OpOutcome) × Nat)) (total : Nat)
      (e : GoErr),
      (∀ p ∈ st1, runOp stack (p.1 p.2) = none) →
      runOp stack (op c) = some e →
      runGroup stack ctx (st1 ++ (op, c) :: st2) total =
        (some e, st1.map (fun p => (p.1, p.2 + 1)) ++ (op, c + 1) :: st2,
          total + st1.length + 1) := by
  intro st1
  induction st1 with
  | nil =>
    intro op c st2 total e _ hfail
    rw [List.nil_append, runGroup]
    simp [hctx, hfail]
  | cons p rest ih =>
    intro op c st2 total e hok hfail
    obtain ⟨op1, c1⟩ := p
    have h0 : runOp stack (op1 c1) = none := hok (op1, c1) (by simp)
    rw [List.cons_append, runGroup]
    simp only [hctx, Bool.false_eq_true, if_false, h0]
    rw [ih op c st2 (total + 1) e (fun q hq => hok q (by simp [hq])) hfail]
    simp
    omega

/-- An attempt succeeds exactly when every operation of the group returns
nil at its current invocation count (live context). -/
theorem runGroup_none_iff (stack : String) (ctx : Ctx)
    (hctx : ∀ n, ctx.done n = false) :
    ∀ (st : List ((Nat → OpOutcome) × Nat)) (total : Nat),
      (runGroup stack ctx st total).1 = none ↔
        ∀ p ∈ st, runOp stack (p.1 p.2) = none := by
  intro st
  induction st with
  | nil => intro total; simp [runGroup]
  | cons p rest ih =>
    intro total
    obtain ⟨op, c⟩ := p
    rw [runGroup]
    simp only [hctx, Bool.false_eq_true, if_false]
    cases h0 : runOp stack (op c) with
    | some e => simp [h0]
    | none => simpa [h0] using ih (total + 1)

/-- The attempt loop over the pair `[A, B]` where `A` always succeeds and
`B` always fails ordinarily: both are invoked on every attempt. -/
theorem doLoop_fail_pair_second (stack : String) (ctx : Ctx)
    (method : Int → Int → Int) (delay : Int)
    (a b : Nat → OpOutcome) (f : Nat → GoErr)
    (hctx : ∀ n, ctx.done n = false)
    (ha : ∀ n, runOp stack (a n) = none)
    (hb : ∀ n, runOp stack (b n) = some (f n))
    (hf : ∀ n, findStopPtr (f n) = none) :
    ∀ fuel ca cb i total e0,
      doLoop stack ctx method delay (fuel + 1) i [(a, ca), (b, cb)] total e0 =
        ⟨some (f (cb + fuel)), [ca + fuel + 1, cb + fuel + 1],
          waitsFrom method delay i (fuel + 1)⟩ := by
  have step : ∀ ca cb total,
      runGroup stack ctx [(a, ca), (b, cb)] total =
        (some (f cb), [(a, ca + 1), (b, cb + 1)], total + 2) := by
    intro ca cb total
    have h := runGroup_first_fail stack ctx hctx [(a, ca)] b cb [] total
      (f cb) (by intro p hp; simp at hp; subst hp; exact ha ca) (hb cb)
    simpa using h
  intro fuel
  induction fuel with
  | zero =>
    intro ca cb i total e0
    rw [doLoop]
    simp only [hctx, Bool.false_eq_true, if_false, step, hf]
    rfl
  | succ fuel ih =>
    intro ca cb i total e0
    rw [doLoop]
    simp only [hctx, Bool.false_eq_true, if_false, step, hf]
    rw [ih (ca + 1) (cb + 1) (i + 1) (total + 2)]
    have h1 : ca + 1 + fuel = ca + (fuel + 1) := by omega
    have h2 : cb + 1 + fuel = cb + (fuel + 1) := by omega
    rw [h1, h2]
    rfl

/-- The attempt loop over the pair `[A, B]` where `A` always fails
ordinarily: `B` is never invoked. -/
theorem doLoop_fail_pair_first (stack : String) (ctx : Ctx)
    (method : Int → Int → Int) (delay : Int)
    (a b : Nat → OpOutcome) (f : Nat → GoErr)
    (hctx : ∀ n, ctx.done n = false)
    (ha : ∀ n, runOp stack (a n) = some (f n))
    (hf : ∀ n, findStopPtr (f n) = none) :
    ∀ fuel ca cb i total e0,
      doLoop stack ctx method delay (fuel + 1) i [(a, ca), (b, cb)] total e0 =
        ⟨some (f (ca + fuel)), [ca + fuel + 1, cb],
          waitsFrom method delay i (fuel + 1)⟩ := by
  have step : ∀ ca cb total,
      runGroup stack ctx [(a, ca), (b, cb)] total =
        (some (f ca), [(a, ca + 1), (b, cb)], total + 1) := by
    intro ca cb total
    rw [runGroup]
    simp [hctx, ha ca]
  intro fuel
  induction fuel with
  | zero =>
    intro ca cb i total e0
    rw [doLoop]
    simp only [hctx, Bool.false_eq_true, if_false, step, hf]
    rfl
  | succ fuel ih =>
    intro ca cb i total e0
    rw [doLoop]
    simp only [hctx, Bool.false_eq_true, if_false, step, hf]
    rw [ih (ca + 1) cb (i + 1) (total + 1)]
    have h1 : ca + 1 + fuel = ca + (fuel + 1) := by omega
    rw [h1]
    rfl

/-- C6: group semantics.  (i) Within one attempt, the operations before
the first failing one succeed, the failure is the attempt's outcome, and
the operations after it are not invoked; (ii) an attempt succeeds iff
every operation in the group runs without failure; (iii) for the group
`[A, B]` over `N` attempts with `A` always succeeding and `B` always
failing with ordinary `E`, `A` and `B` are each invoked exactly `N` times
and the final error is `E`; (iv) if `A` always fails with ordinary `E`,
`B` is never invoked and the final error is `E`. -/
theorem C6_group_first_failure_semantics :
    (∀ (stack : String) (ctx : Ctx), (∀ n, ctx.done n = false) →
      ∀ st1 (op : Nat → OpOutcome) (c : Nat) st2 (total : Nat) (e : GoErr),
        (∀ p ∈ st1, runOp stack (p.1 p.2) = none) →
        runOp stack (op c) = some e →
        runGroup stack ctx (st1 ++ (op, c) :: st2) total =
          (some e, st1.map (fun p => (p.1, p.2 + 1)) ++ (op, c + 1) :: st2,
            total + st1.length + 1)) ∧
    (∀ (stack : String) (ctx : Ctx), (∀ n, ctx.done n = false) →
      ∀ st (total : Nat),
        (runGroup stack ctx st total).1 = none ↔
          ∀ p ∈ st, runOp stack (p.1 p.2) = none) ∧
    (∀ (method : Option (Int → Int → Int)) (delay maxDelay N : Int),
      1 ≤ N → ∀ (stack : String) (ctx : Ctx), (∀ n, ctx.done n = false) →
      ∀ (E : GoErr), findStopPtr E = none →
        (Retry.mk method delay maxDelay N).doContext ctx stack
            [fun _ => .ret none, fun _ => .ret (some E)] =
          ⟨some E, [N.toNat, N.toNat],
            waitsFrom (method.getD standardDelay) delay 0 N.toNat⟩) ∧
    (∀ (method : Option (Int → Int → Int)) (delay maxDelay N : Int),
      1 ≤ N → ∀ (stack : String) (ctx : Ctx), (∀ n, ctx.done n = false) →
      ∀ (E : GoErr), findStopPtr E = none →
      ∀ (b : Nat → OpOutcome),
        (Retry.mk method delay maxDelay N).doContext ctx stack
            [fun _ => .ret (some E), b] =
          ⟨some E, [N.toNat, 0],
            waitsFrom (method.getD standardDelay) delay 0 N.toNat⟩) := by
  refine ⟨fun stack ctx hctx => runGroup_first_fail stack ctx hctx,
          fun stack ctx hctx => runGroup_none_iff stack ctx hctx, ?_, ?_⟩
  · intro method delay maxDelay N hN stack ctx hctx E hE
    obtain ⟨m, hm⟩ : ∃ m, N.toNat = m + 1 := ⟨N.toNat - 1, by omega⟩
    unfold Retry.doContext
    simp only [hm, List.map]
    rw [doLoop_fail_pair_second stack ctx (method.getD standardDelay) delay
      (fun _ => .ret none) (fun _ => .ret (some E)) (fun _ => E) hctx
      (fun _ => rfl) (fun _ => rfl) (fun _ => hE) m 0 0 0 0 none]
    simp
  · intro method delay maxDelay N hN stack ctx hctx E hE b
    obtain ⟨m, hm⟩ : ∃ m, N.toNat = m + 1 := ⟨N.toNat - 1, by omega⟩
    unfold Retry.doContext
    simp only [hm, List.map]
    rw [doLoop_fail_pair_first stack ctx (method.getD standardDelay) delay
      (fun _ => .ret (some E)) b (fun _ => E) hctx
      (fun _ => rfl) (fun _ => hE) m 0 0 0 0 none]
    simp

/-- C6 witness. -/
theorem C6_group_first_failure_semantics_witness :
    (Retry.mk none 5 0 3).doContext neverDone "stk"
        [fun _ => .ret none, fun _ => .ret (some (.base "b"))] =
      ⟨some (.base "b"), [3, 3], [5, 5, 5]⟩ ∧
    (Retry.mk none 5 0 3).doContext neverDone "stk"
        [fun _ => .ret (some (.base "a")), fun _ => .ret none] =
      ⟨some (.base "a"), [3, 0], [5, 5, 5]⟩ ∧
    (runGroup "stk" neverDone
        [(fun _ => .ret (some (.base "a")), 0), (fun _ => .ret none, 0)] 0).1 =
      some (.base "a") := by
  have h := C6_group_first_failure_semantics
  refine ⟨?_, ?_, ?_⟩
  · rw [h.2.2.1 none 5 0 3 (by decide) "stk" neverDone (fun _ => rfl)
      (.base "b") rfl]
    rfl
  · rw [h.2.2.2 none 5 0 3 (by decide) "stk" neverDone (fun _ => rfl)
      (.base "a") rfl (fun _ => .ret none)]
    rfl
  · have h1 := h.1 "stk" neverDone (fun _ => rfl) []
      (fun _ => .ret (some (.base "a"))) 0 [(fun _ => .ret none, 0)] 0
      (.base "a") (by simp) rfl
    simpa using congrArg Prod.fst h1

/-- C7 counterexample: with base delay `D = 1 > 0` and cap `C = 0`, the
policy does not return a wait duration at all — after clamping, the
jitter bound is non-positive and `rand.Int63n` panics (modelled as
`none`), so no value in the claimed interval is produced. -/
theorem C7_counterexample : incrementalDelayMax 0 1 1 0 = none := rfl

/-- C7 (amended): a zero base delay yields `some 0` regardless of the cap
and the attempt; and for positive base delay `D`, positive cap `C`,
attempt `a ≥ 1` and a jitter draw `j` uniform in `[0, D')` with
`D' = min(D, C)`, as long as `D'*a + j/2` stays within int64, the policy
returns `D'*a + j/2`, which lies in the half-open interval
`[D'*a, D'*a + D'/2)` (stated as `2*w < 2*(D'*a) + D'`); both interval
bounds are monotonically non-decreasing in the attempt index. -/
theorem C7_incremental_delay_bounds :
    (∀ maximum attempt j : Int,
      incrementalDelayMax maximum attempt 0 j = some 0) ∧
    (∀ maximum attempt delay j : Int,
      0 < delay → 0 < maximum → 1 ≤ attempt → 0 ≤ j →
      j < min delay maximum →
      min delay maximum * attempt + j / 2 < 2 ^ 63 →
      incrementalDelayMax maximum attempt delay j =
        some (min delay maximum * attempt + j / 2) ∧
      min delay maximum * attempt ≤ min delay maximum * attempt + j / 2 ∧
      2 * (min delay maximum * attempt + j / 2) <
        2 * (min delay maximum * attempt) + min delay maximum) ∧
    (∀ d a a' : Int, 0 ≤ d → a ≤ a' →
      d * a ≤ d * a' ∧ 2 * (d * a) + d ≤ 2 * (d * a') + d) := by
  refine ⟨fun maximum attempt j => by simp [incrementalDelayMax], ?_, ?_⟩
  · intro maximum attempt delay j hd hmax ha hj0 hj1 hbound
    have hmin : (if delay > maximum then maximum else delay) =
        min delay maximum := by
      split <;> omega
    have hminpos : 0 < min delay maximum := by omega
    have hprod : 0 ≤ min delay maximum * attempt :=
      le_of_lt (mul_pos hminpos (by omega))
    have hhalf : 0 ≤ j / 2 ∧ 2 * (j / 2) ≤ j := by omega
    have hw1 : wrap64 (min delay maximum * attempt) =
        min delay maximum * attempt :=
      wrap64_eq_self _ hprod (by omega)
    have hres : incrementalDelayMax maximum attempt delay j =
        some (wrap64 (wrap64 (min delay maximum * attempt) + j / 2)) := by
      unfold incrementalDelayMax
      rw [if_neg (by omega), hmin, if_neg (by omega)]
    rw [hres, hw1, wrap64_eq_self _ (by omega) (by omega)]
    refine ⟨rfl, by omega, by omega⟩
  · intro d a a' hd h
    have := mul_le_mul_of_nonneg_left h hd
    exact ⟨this, by omega⟩

/-- C7 amended-claim witness. -/
theorem C7_incremental_delay_bounds_witness :
    incrementalDelayMax 100 3 7 6 = some 24 ∧
    incrementalDelayMax 100 3 0 6 = some 0 := by
  have h := C7_incremental_delay_bounds
  refine ⟨?_, h.1 100 3 6⟩
  have h2 := (h.2.1 100 3 7 6 (by decide) (by decide) (by decide)
    (by decide) (by decide) (by decide)).1
  rw [h2]
  decide

/-- C8 counterexample: with the default constant policy, base delay 5 and
budget `N = 2` over an always-failing operation, the engine performs two
sleeps, not the claimed `N - 1 = 1`: it also sleeps after the final failed
attempt before returning the exhausted result. -/
theorem C8_counterexample :
    ((Retry.mk none 5 0 2).Do "s"
        [fun _ => .ret (some (.base "e"))]).waits ≠ [5] := by
  decide

/-- C8 (amended): with the default constant policy and base delay `D`,
running `N ≥ 1` attempts over an always-failing ordinary operation
performs exactly `N` sleeps of `D` each — one after every failed attempt,
including the final one — for a total waiting time of `N * D`, and
returns the last failure. -/
theorem C8_constant_policy_waits (delay maxDelay N : Int) (hN : 1 ≤ N)
    (stack : String) (E : GoErr) (hE : findStopPtr E = none) :
    (Retry.mk none delay maxDelay N).Do stack [fun _ => .ret (some E)] =
      ⟨some E, [N.toNat], List.replicate N.toNat delay⟩ ∧
    (List.replicate N.toNat delay).sum = N.toNat * delay := by
  obtain ⟨m, hm⟩ : ∃ m, N.toNat = m + 1 := ⟨N.toNat - 1, by omega⟩
  constructor
  · unfold Retry.Do Retry.doContext
    simp only [hm, List.map, Option.getD_none]
    rw [doLoop_fail_single stack neverDone standardDelay delay
      (fun _ => .ret (some E)) (fun _ => E) (fun _ => rfl) (fun _ => rfl)
      (fun _ => hE) m 0 0 0 none]
    rw [waitsFrom_standard]
    simp [hm]
  · simp [List.sum_replicate, nsmul_eq_mul]

/-- C8 amended-claim witness. -/
theorem C8_constant_policy_waits_witness :
    (Retry.mk none 5 0 2).Do "s" [fun _ => .ret (some (.base "e"))] =
      ⟨some (.base "e"), [2], [5, 5]⟩ := by
  rw [(C8_constant_policy_waits 5 0 2 (by decide) "s" (.base "e") rfl).1]
  rfl

/-- The attempt loop on a single always-ordinarily-failing operation
under a context that fires once `k` invocations have completed: the loop
runs `k` failing iterations (each with its sleep) and then observes the
cancellation at the top of the next iteration, returning the reason. -/
theorem doLoop_cancel_single (stack : String) (method : Int → Int → Int)
    (delay : Int) (reason : GoErr) (op : Nat → OpOutcome) (f : Nat → GoErr)
    (hop : ∀ n, runOp stack (op n) = some (f n))
    (hf : ∀ n, findStopPtr (f n) = none) (k : Nat) :
    ∀ j c i fuel e0, c + j = k → j ≤ fuel →
      doLoop stack ⟨fun n => decide (k ≤ n), reason⟩ method delay
          (fuel + 1) i [(op, c)] c e0 =
        ⟨some reason, [k], waitsFrom method delay i j⟩ := by
  intro j
  induction j with
  | zero =>
    intro c i fuel e0 hc _
    rw [doLoop]
    have hdone : decide (k ≤ c) = true := by simp; omega
    simp only [hdone, if_true]
    obtain rfl : c = k := by omega
    rfl
  | succ j ih =>
    intro c i fuel e0 hc hfuel
    obtain ⟨fuel', rfl⟩ : ∃ fuel', fuel = fuel' + 1 :=
      ⟨fuel - 1, by omega⟩
    have hlive : decide (k ≤ c) = false := by simp; omega
    have step : runGroup stack ⟨fun n => decide (k ≤ n), reason⟩
        [(op, c)] c = (some (f c), [(op, c + 1)], c + 1) := by
      rw [runGroup]
      simp only [hlive, Bool.false_eq_true, if_false, hop]
    rw [doLoop]
    simp only [hlive, Bool.false_eq_true, if_false, step, hf]
    rw [ih (c + 1) (i + 1) fuel' (some (f c)) (by omega) (by omega)]
    rfl

/-- C9 counterexample: budget 3, base delay 5, an always-failing
operation, and a context that fires after the first invocation
(cancellation between attempt 1 and attempt 2).  The engine does return
the cancellation reason after exactly one invocation, but only after
fully sleeping the backoff for attempt 2 — the wait list is not empty as
the claim requires. -/
theorem C9_counterexample :
    ((Retry.mk none 5 0 3).doContext ⟨fun n => decide (1 ≤ n), .base "c"⟩
        "s" [fun _ => .ret (some (.base "e"))]).waits ≠ [] := by
  decide

/-- C9 (amended): cancellation observed at a checkpoint ends the run with
the cancellation reason and no further operation invocations.  (i) A
context already done before any attempt yields zero invocations, the
reason, and no sleeps.  (ii) A context that fires once `k` invocations
have completed (`1 ≤ k < N`), over a single always-failing ordinary
operation, yields exactly `k` invocations and the reason — but only after
`k` backoff sleeps: the engine sleeps after attempt `k` (the backoff for
attempt `k + 1`) before it observes the cancellation at the top of
attempt `k + 1`, because `time.Sleep` is not interruptible by the
context. -/
theorem C9_cancellation_checkpoints :
    (∀ (r : Retry), 1 ≤ r.attempts → ∀ (reason : GoErr) (stack : String)
      (ops : List (Nat → OpOutcome)),
      r.doContext ⟨fun _ => true, reason⟩ stack ops =
        ⟨some reason, List.replicate ops.length 0, []⟩) ∧
    (∀ (method : Option (Int → Int → Int)) (delay maxDelay : Int)
      (reason : GoErr) (stack : String) (k N : Nat) (f : Nat → GoErr),
      (∀ n, findStopPtr (f n) = none) → 1 ≤ k → k < N →
      (Retry.mk method delay maxDelay (N : Int)).doContext
          ⟨fun n => decide (k ≤ n), reason⟩ stack
          [fun n => .ret (some (f n))] =
        ⟨some reason, [k],
          waitsFrom (method.getD standardDelay) delay 0 k⟩ ∧
      (waitsFrom (method.getD standardDelay) delay 0 k).length = k) := by
  constructor
  · intro r hr reason stack ops
    obtain ⟨m, hm⟩ : ∃ m, r.attempts.toNat = m + 1 :=
      ⟨r.attempts.toNat - 1, by omega⟩
    unfold Retry.doContext
    rw [hm, doLoop]
    simp only [if_true]
    rw [initCounts]
  · intro method delay maxDelay reason stack k N f hf hk hkN
    refine ⟨?_, waitsFrom_length _ _ k 0⟩
    unfold Retry.doContext
    have hN : (N : Int).toNat = (N - 1) + 1 := by omega
    rw [hN]
    simp only [List.map]
    exact doLoop_cancel_single stack (method.getD standardDelay) delay
      reason (fun n => .ret (some (f n))) f (fun _ => rfl) hf k k 0 0
      (N - 1) none (by omega) (by omega)

/-- C9 amended-claim witness. -/
theorem C9_cancellation_checkpoints_witness :
    (Retry.mk none 5 0 3).doContext ⟨fun _ => true, .base "c"⟩ "s"
        [fun _ => .ret (some (.base "e"))] =
      ⟨some (.base "c"), [0], []⟩ ∧
    (Retry.mk none 5 0 3).doContext ⟨fun n => decide (1 ≤ n), .base "c"⟩
        "s" [fun _ => .ret (some (.base "e"))] =
      ⟨some (.base "c"), [1], [5]⟩ := by
  have h := C9_cancellation_checkpoints
  constructor
  · rw [h.1 (Retry.mk none 5 0 3) (by decide) (.base "c") "s"
      [fun _ => .ret (some (.base "e"))]]
    rfl
  · have h2 := (h.2 none 5 0 (.base "c") "s" 1 3 (fun _ => .base "e")
      (fun _ => rfl) (by decide) (by decide)).1
    norm_cast at h2

/-- C2 witness. -/
theorem C2_nonpositive_budget_noop_witness :
    (Retry.mk none 5 7 0).Do "stk"
        [fun _ => .ret (some (.base "e")), fun _ => .panicOther "p"] =
      ⟨none, [0, 0], []⟩ := by
  rw [(C2_nonpositive_budget_noop (Retry.mk none 5 7 0) (by decide)
    neverDone "stk"
    [fun _ => .ret (some (.base "e")), fun _ => .panicOther "p"]).2]
  rfl
